import Mathlib

/-!
Verification development for the Kendo bracket progression & ranking engine.

The definitions below are a shallow embedding of the TypeScript source:
* `placePlayerInMatch`, `handleWalkover`, `submitScore`, `addRanking`,
  `getRankings` come from `src/types.ts` (the App component logic);
* `calculateDepth`, `layoutDepths`, `levels` come from
  `src/components/BracketTree.tsx`.

JavaScript `string | null` and `number | null` fields are modelled as
`Option`; the code never stores `0` as a match id nor `""` as a player id,
so JS truthiness tests on those fields are modelled as `Option.isSome`.
Early returns that leave the React state untouched are modelled as
`Except.error`: an error result means no mutation happened.
-/

namespace Kendo

inductive Slot where
  | red
  | white
deriving DecidableEq, Repr

structure Player where
  id : String
  name : String
deriving DecidableEq, Repr

structure MatchResult where
  winnerId : String
  redScore : Nat
  whiteScore : Nat
  details : String
deriving DecidableEq, Repr

structure Match where
  id : Nat
  redPlayerId : Option String
  whitePlayerId : Option String
  winnerToMatchId : Option Nat
  winnerToSlot : Option Slot
  loserToMatchId : Option Nat
  loserToSlot : Option Slot
  result : Option MatchResult
deriving DecidableEq, Repr

/-- The per-element update performed by `placePlayerInMatch` on each match of
the collection (the body of the `ms.map` in the source). -/
def placeFn (targetMatchId : Nat) (playerId : String) (targetSlot : Option Slot)
    (sourceParticipants : List String) (targetMatch : Match) : Match :=
  if targetMatch.id == targetMatchId then
    -- Explicit slot assignment (always overwrites)
    if targetSlot == some Slot.red then { targetMatch with redPlayerId := some playerId }
    else if targetSlot == some Slot.white then { targetMatch with whitePlayerId := some playerId }
    -- Auto-fill heuristic, correction priority first
    else if (match targetMatch.redPlayerId with
             | some r => sourceParticipants.contains r
             | none => false) then { targetMatch with redPlayerId := some playerId }
    else if (match targetMatch.whitePlayerId with
             | some w => sourceParticipants.contains w
             | none => false) then { targetMatch with whitePlayerId := some playerId }
    -- Fill first empty slot
    else if targetMatch.redPlayerId.isNone then { targetMatch with redPlayerId := some playerId }
    else if targetMatch.whitePlayerId.isNone then { targetMatch with whitePlayerId := some playerId }
    -- Fallback: both full, no source participant: return as is
    else targetMatch
  else targetMatch

/-- `placePlayerInMatch` from `src/types.ts`. -/
def placePlayerInMatch (ms : List Match) (targetMatchId : Nat) (playerId : String)
    (targetSlot : Option Slot) (sourceParticipants : List String) : List Match :=
  ms.map (placeFn targetMatchId playerId targetSlot sourceParticipants)

inductive WalkoverError where
  | matchNotFound
  | noEligiblePlayer
deriving DecidableEq, Repr

/-- `handleWalkover` from `src/types.ts` (the confirmation dialog and the
persistence call are UI plumbing and not part of the engine logic). -/
def handleWalkover (ms : List Match) (matchId : Nat) :
    Except WalkoverError (List Match) :=
  match ms.find? (fun m => m.id == matchId) with
  | none => Except.error WalkoverError.matchNotFound
  | some m =>
    match m.redPlayerId.orElse (fun _ => m.whitePlayerId) with
    | none => Except.error WalkoverError.noEligiblePlayer
    | some winnerId =>
      let result : MatchResult :=
        { winnerId := winnerId, redScore := 0, whiteScore := 0,
          details := "輪空晉級 (Walkover)" }
      let sourceParticipants := [m.redPlayerId, m.whitePlayerId].filterMap (fun x => x)
      let updated := ms.map (fun x =>
        if x.id == matchId then { x with result := some result } else x)
      let updated2 := match m.winnerToMatchId with
        | some wt => placePlayerInMatch updated wt winnerId m.winnerToSlot sourceParticipants
        | none => updated
      -- loser branch of the source is deliberately empty: no loser routing
      Except.ok updated2

inductive SubmitError where
  | matchNotFound
  | notReady
  | tied
deriving DecidableEq, Repr

/-- `submitScore` from `src/types.ts`. -/
def submitScore (ms : List Match) (matchId : Nat) (redScore whiteScore : Nat)
    (details : String) : Except SubmitError (List Match) :=
  match ms.find? (fun m => m.id == matchId) with
  | none => Except.error SubmitError.matchNotFound
  | some m =>
    match m.redPlayerId, m.whitePlayerId with
    | some redP, some whiteP =>
      let finish := fun (winnerId loserId : String) =>
        let result : MatchResult :=
          { winnerId := winnerId, redScore := redScore, whiteScore := whiteScore,
            details := details }
        let sourceParticipants := [redP, whiteP]
        let u1 := ms.map (fun x =>
          if x.id == matchId then { x with result := some result } else x)
        let u2 := match m.winnerToMatchId with
          | some wt => placePlayerInMatch u1 wt winnerId m.winnerToSlot sourceParticipants
          | none => u1
        let u3 := match m.loserToMatchId with
          | some lt => placePlayerInMatch u2 lt loserId m.loserToSlot sourceParticipants
          | none => u2
        Except.ok u3
      if redScore > whiteScore then finish redP whiteP
      else if whiteScore > redScore then finish whiteP redP
      else Except.error SubmitError.tied
    | _, _ => Except.error SubmitError.notReady

structure RankEntry where
  title : String
  name : String
  rankOrder : Nat
deriving DecidableEq, Repr

structure RankState where
  rankings : List RankEntry
  processedPlayers : List String
deriving DecidableEq, Repr

/-- `addRanking` from `getRankings` in `src/types.ts`, with the two pieces of
accumulated state (`rankings`, `processedPlayers`) passed explicitly. -/
def addRanking (players : List Player) (st : RankState) (pid : Option String)
    (title : String) (order : Nat) : RankState :=
  match pid with
  | none => st
  | some pid =>
    if st.processedPlayers.contains pid then st
    else
      match players.find? (fun pl => pl.id == pid) with
      | some p =>
        { rankings := st.rankings ++ [{ title := title, name := p.name, rankOrder := order }],
          processedPlayers := pid :: st.processedPlayers }
      | none => st

/-- The loser of a finished match, as computed at each use site in
`getRankings`: `winnerId === redPlayerId ? whitePlayerId : redPlayerId`. -/
def loserOfResult (m : Match) (winnerId : String) : Option String :=
  if m.redPlayerId == some winnerId then m.whitePlayerId else m.redPlayerId

/-- `getLosersOfFeeders` from `src/types.ts`. -/
def getLosersOfFeeders (ms : List Match) (targetMatchIds : List Nat) : List Match :=
  ms.filter (fun m =>
    match m.winnerToMatchId with
    | some w => targetMatchIds.contains w
    | none => false)

/-- Body of the `mainRoots.forEach` / `consolationRoots.forEach` loops in
`getRankings`: ranks the winner and the derived loser of a finished root. -/
def finalistsStep (players : List Player) (t1 : String) (o1 : Nat) (t2 : String) (o2 : Nat)
    (st : RankState) (root : Match) : RankState :=
  match root.result with
  | some res =>
    addRanking players (addRanking players st (some res.winnerId) t1 o1)
      (loserOfResult root res.winnerId) t2 o2
  | none => st

/-- Body of the implicit-ranking loops in `getRankings`: ranks the loser of a
finished feeder match. -/
def losersStep (players : List Player) (t : String) (o : Nat)
    (st : RankState) (m : Match) : RankState :=
  match m.result with
  | some res => addRanking players st (loserOfResult m res.winnerId) t o
  | none => st

/-- The state accumulated by `getRankings` before the final sort/truncate. -/
def rankAccumulate (players : List Player) (ms : List Match) (limit : Nat) : RankState :=
  let rootMatches := ms.filter (fun m => m.winnerToMatchId.isNone)
  let consolationRoots := rootMatches.filter (fun root =>
    ms.any (fun m => m.loserToMatchId == some root.id))
  let mainRoots := rootMatches.filter (fun root =>
    ! ms.any (fun m => m.loserToMatchId == some root.id))
  -- Sort descending by id (JS `sort((a,b) => b.id - a.id)`, stable)
  let mainSorted := List.insertionSort (fun a b => b.id ≤ a.id) mainRoots
  let consSorted := List.insertionSort (fun a b => b.id ≤ a.id) consolationRoots
  let st0 : RankState := { rankings := [], processedPlayers := [] }
  let st1 := mainSorted.foldl
    (finalistsStep players "冠軍 (Champion)" 1 "亞軍 (2nd Place)" 2) st0
  let st2 := consSorted.foldl
    (finalistsStep players "季軍 (3rd Place)" 3 "殿軍 (4th Place)" 4) st1
  let mainRootIds := mainSorted.map (fun m => m.id)
  let st3 :=
    if consolationRoots.isEmpty then
      (getLosersOfFeeders ms mainRootIds).foldl
        (losersStep players "季軍 (3rd Place - Joint)" 3) st2
    else st2
  if limit > 4 then
    let semiMatches := getLosersOfFeeders ms mainRootIds
    let semiIds := semiMatches.map (fun m => m.id)
    let qfMatches := getLosersOfFeeders ms semiIds
    let st4 := qfMatches.foldl (losersStep players "第五名 (5th Place)" 5) st3
    if limit > 8 then
      let qfIds := qfMatches.map (fun m => m.id)
      let r16Matches := getLosersOfFeeders ms qfIds
      r16Matches.foldl (losersStep players "第九名 (9th Place)" 9) st4
    else st4
  else st3

/-- `getRankings` from `src/types.ts`: accumulate titles, then sort by
`rankOrder` ascending (stable) and truncate to `limit`. -/
def getRankings (players : List Player) (ms : List Match) (limit : Nat) : List RankEntry :=
  (List.insertionSort (fun a b => a.rankOrder ≤ b.rankOrder)
    (rankAccumulate players ms limit).rankings).take limit

/-! ## Round layout (`src/components/BracketTree.tsx`)

The JS `Map<number, number>` is modelled as an association list kept in
insertion order; `Map.set` replaces in place or appends. -/

abbrev DepthMap := List (Nat × Nat)

def dmGet (mp : DepthMap) (k : Nat) : Option Nat :=
  match mp.find? (fun e => e.1 == k) with
  | some e => some e.2
  | none => none

def dmSet (mp : DepthMap) (k v : Nat) : DepthMap :=
  if mp.any (fun e => e.1 == k) then
    mp.map (fun e => if e.1 == k then (k, v) else e)
  else mp ++ [(k, v)]

/-- The recursion cap of the layout traversal (`const maxDepth = 10`). -/
def maxDepth : Nat := 10

/-- `matchDepthMap.get(matchId) || -1`: JS `||` turns a stored `0` into `-1`. -/
def jsExisting (mp : DepthMap) (k : Nat) : Int :=
  match dmGet mp k with
  | some e => if e == 0 then -1 else (e : Int)
  | none => -1

/-- The conditional update at the top of `calculateDepth`:
`if (currentDepth > existing) matchDepthMap.set(matchId, currentDepth)`. -/
def dmUpdate (mp : DepthMap) (k c : Nat) : DepthMap :=
  if (c : Int) > jsExisting mp k then dmSet mp k c else mp

/-- Matches that feed INTO a given match (either winner or loser edge). -/
def feedersOf (ms : List Match) (matchId : Nat) : List Match :=
  ms.filter (fun m => m.winnerToMatchId == some matchId || m.loserToMatchId == some matchId)

/-- Fuelled form of the `calculateDepth` recursion.  The JS recursion is
bounded: every call with `currentDepth > maxDepth` returns immediately, so
along every call chain `currentDepth` increases and the recursion depth is
at most `maxDepth + 1 - currentDepth`; that quantity is the structural fuel
here, and `calculateDepth` below always supplies exactly that amount, making
the `0` case coincide with the JS guard. -/
def calcGo (ms : List Match) : Nat → Nat → Nat → DepthMap → DepthMap
  | 0, _, _, mp => mp
  | fuel + 1, matchId, currentDepth, mp =>
    if currentDepth > maxDepth then mp
    else
      (feedersOf ms matchId).foldl
        (fun acc f => calcGo ms fuel f.id (currentDepth + 1) acc)
        (dmUpdate mp matchId currentDepth)

/-- `calculateDepth` from `src/components/BracketTree.tsx` (reverse DFS from
the root, updating a match's depth whenever a longer path reaches it). -/
def calculateDepth (ms : List Match) (matchId : Nat) (currentDepth : Nat)
    (mp : DepthMap) : DepthMap :=
  calcGo ms (maxDepth + 1 - currentDepth) matchId currentDepth mp

/-- One iteration of the orphan-handling `ms.forEach` loop in the
`levels` computation: unlinked matches get the depth of their first found
downstream target plus one, or depth `0`. -/
def orphanStep (ms : List Match) (mp : DepthMap) (m : Match) : DepthMap :=
  if (dmGet mp m.id).isSome then mp
  else
    match ms.find? (fun p => m.winnerToMatchId == some p.id || m.loserToMatchId == some p.id) with
    | some parent =>
      match dmGet mp parent.id with
      | some pd => calculateDepth ms m.id (pd + 1) mp
      | none => dmSet mp m.id 0
    | none => dmSet mp m.id 0

/-- The complete depth assignment of the layout: root traversal followed by
the orphan pass. -/
def layoutDepths (ms : List Match) (rootMatchId : Nat) : DepthMap :=
  ms.foldl (orphanStep ms) (calculateDepth ms rootMatchId 0 [])

/-- The `levels` value of `BracketTree`: matches grouped by depth from the
maximum found depth down to `0`, each group sorted by id. -/
def levels (ms : List Match) (rootMatchId : Nat) : List (List Match) :=
  let mp := layoutDepths ms rootMatchId
  let maxFoundDepth := (mp.map (fun e => e.2)).foldl max 0
  ((List.range (maxFoundDepth + 1)).reverse).map (fun d =>
    List.insertionSort (fun a b => a.id ≤ b.id)
      (ms.filter (fun m => dmGet mp m.id == some d)))

/-! ## Specification-side definitions and concrete inputs -/

/-- Modelled from the spec's words (§4.2 of the spec, claim C2): the
Auto-placement policy as the specification states it, used as the comparison
point for the refinement proof about `placePlayerInMatch`. -/
def autoPlaceSpecPolicy (playerId : String) (sourceParticipants : List String)
    (tm : Match) : Match :=
  if (match tm.redPlayerId with
      | some r => sourceParticipants.contains r
      | none => false) then { tm with redPlayerId := some playerId }
  else if (match tm.whitePlayerId with
           | some w => sourceParticipants.contains w
           | none => false) then { tm with whitePlayerId := some playerId }
  else if tm.redPlayerId.isNone then { tm with redPlayerId := some playerId }
  else if tm.whitePlayerId.isNone then { tm with whitePlayerId := some playerId }
  else tm

/-- Read a slot of a match. -/
def slotGet (m : Match) (s : Slot) : Option String :=
  match s with
  | Slot.red => m.redPlayerId
  | Slot.white => m.whitePlayerId

/-- Helper constructor for concrete unfinished matches. -/
def mkMatch (id : Nat) (red white : Option String) (wTo : Option Nat) (wSlot : Option Slot)
    (lTo : Option Nat) (lSlot : Option Slot) : Match :=
  { id := id, redPlayerId := red, whitePlayerId := white, winnerToMatchId := wTo,
    winnerToSlot := wSlot, loserToMatchId := lTo, loserToSlot := lSlot, result := none }

/-- The four players of the three-match scenario. -/
def scenarioPlayers : List Player :=
  [⟨"p1", "A"⟩, ⟨"p2", "B"⟩, ⟨"p3", "C"⟩, ⟨"p4", "D"⟩]

/-- The three-match bracket: M1 winner → M3 Red, M2 winner → M3 White,
M3 is the root. -/
def scenarioMatches : List Match :=
  [ mkMatch 1 (some "p1") (some "p2") (some 3) (some Slot.red) none none,
    mkMatch 2 (some "p3") (some "p4") (some 3) (some Slot.white) none none,
    mkMatch 3 none none none none none none ]

/-- A match eligible for walkover (only Red occupied, unfinished) whose winner
edge and loser edge both target match 2. -/
def woBothEdgesM1 : Match :=
  mkMatch 1 (some "p1") none (some 2) (some Slot.red) (some 2) (some Slot.white)

/-- Tournament for the C4 counterexample. -/
def woBothEdges : List Match :=
  [ woBothEdgesM1, mkMatch 2 none none none none none none ]

/-- A match whose winner edge targets match 2, in a component disconnected
from the root (match 3): used for the C7 counterexample. -/
def discoM1 : Match := mkMatch 1 none none (some 2) none none none

/-- Target of `discoM1`'s winner edge. -/
def discoM2 : Match := mkMatch 2 none none none none none none

/-- Three matches where matches 1 and 2 are disconnected from root 3. -/
def discoMs : List Match := [discoM1, discoM2, mkMatch 3 none none none none none none]

/-- Two-match bracket (1 feeds 2, 2 is the root) for layout witnesses. -/
def pairMs : List Match :=
  [ mkMatch 1 none none (some 2) none none none,
    mkMatch 2 none none none none none none ]

/-- Match number 11 of the 12-long chain: every path from the root to it has
length 11 > `maxDepth`. -/
def chainM11 : Match := mkMatch 11 none none (some 10) none none none

/-- A chain of twelve matches feeding root 13: match `i` feeds match `i-1`
and match 1 feeds the root, so match `i` sits at distance `i` from the root,
past the recursion cap for `i ≥ 11`. -/
def chainMs : List Match :=
  [ mkMatch 1 none none (some 13) none none none,
    mkMatch 2 none none (some 1) none none none,
    mkMatch 3 none none (some 2) none none none,
    mkMatch 4 none none (some 3) none none none,
    mkMatch 5 none none (some 4) none none none,
    mkMatch 6 none none (some 5) none none none,
    mkMatch 7 none none (some 6) none none none,
    mkMatch 8 none none (some 7) none none none,
    mkMatch 9 none none (some 8) none none none,
    mkMatch 10 none none (some 9) none none none,
    chainM11,
    mkMatch 12 none none (some 11) none none none,
    mkMatch 13 none none none none none none ]

/-! ## Proof-side predicates -/

/-- `a` feeds `bId`: `a`'s winner or loser edge targets the match id `bId`. -/
def Feeds (a : Match) (bId : Nat) : Prop :=
  a.winnerToMatchId = some bId ∨ a.loserToMatchId = some bId

/-- Pointwise domination of depth maps: every assigned depth stays assigned
and never decreases. -/
def DMle (mp mp' : DepthMap) : Prop :=
  ∀ k v, dmGet mp k = some v → ∃ v', dmGet mp' k = some v' ∧ v ≤ v'

/-- All depths stored in a map are at most `maxDepth`. -/
def DBounded (mp : DepthMap) : Prop :=
  ∀ k v, dmGet mp k = some v → v ≤ maxDepth

/-- Every feeder of `bId` has been assigned a depth above `db`. -/
def Bump (ms : List Match) (mp : DepthMap) (bId db : Nat) : Prop :=
  ∀ a, a ∈ ms → Feeds a bId → ∃ va, dmGet mp a.id = some va ∧ db + 1 ≤ va

/-- Invariant carried through the layout's orphan pass, relative to the map
`m0` produced by the root traversal: depths stay bounded by the cap, the
map only grows, and every sub-cap depth of a root-reached match forces all
its feeders to sit strictly deeper. -/
def LayoutInv (ms : List Match) (m0 mp : DepthMap) : Prop :=
  DBounded mp ∧ DMle m0 mp ∧
  ∀ bId db, dmGet mp bId = some db → db < maxDepth → (dmGet m0 bId).isSome →
    Bump ms mp bId db

/-- Invariant of the ranking accumulation: entry names are pairwise distinct
and every entry's name belongs to a processed player. -/
def RankInv (players : List Player) (st : RankState) : Prop :=
  (st.rankings.map RankEntry.name).Nodup ∧
  ∀ e ∈ st.rankings, ∃ p, p ∈ players ∧ p.name = e.name ∧ p.id ∈ st.processedPlayers

deriving instance DecidableEq for Except

end Kendo


namespace Kendo

/-- Claim C1: in the three-match bracket, submitting M1 red=3/white=1 and
M2 red=0/white=2 puts M1's red player (p1) in M3's Red slot and M2's white
player (p4) in M3's White slot; after submitting M3 red=2/white=1 the
rankings with limit 4 are exactly Champion p1 (A), Runner-up p4 (D),
joint 3rd p2 (B), joint 3rd p3 (C), in that order. -/
theorem scenario_three_match_rankings :
    ((submitScore scenarioMatches 1 3 1 "Men").bind (fun ms1 =>
      (submitScore ms1 2 0 2 "Kote").bind (fun ms2 =>
        (submitScore ms2 3 2 1 "Do").map (fun ms3 =>
          ((ms2.find? (fun m => m.id == 3)).map (fun m => (m.redPlayerId, m.whitePlayerId)),
            getRankings scenarioPlayers ms3 4)))))
    = Except.ok (some (some "p1", some "p4"),
        [ { title := "冠軍 (Champion)", name := "A", rankOrder := 1 },
          { title := "亞軍 (2nd Place)", name := "D", rankOrder := 2 },
          { title := "季軍 (3rd Place - Joint)", name := "B", rankOrder := 3 },
          { title := "季軍 (3rd Place - Joint)", name := "C", rankOrder := 3 } ]) := by
  decide

/-- Claim C2: with an Auto (unspecified) target slot, `placePlayerInMatch`
transforms exactly the matches with the target id by the spec's stated
policy (correction priority on Red then White, then fill-first-empty Red
then White, else leave unchanged), and leaves every other match alone. -/
theorem placePlayerInMatch_auto_spec (ms : List Match) (targetMatchId : Nat)
    (playerId : String) (src : List String) :
    placePlayerInMatch ms targetMatchId playerId none src
      = ms.map (fun m => if m.id == targetMatchId
          then autoPlaceSpecPolicy playerId src m else m) := by
  rfl

/-- Claim C3: when the found match has both slots occupied and the scores
are equal, `submitScore` fails with the tied-score error; the error return
models the early exit that performs no mutation. -/
theorem submitScore_tied_error (ms : List Match) (matchId : Nat) (m : Match)
    (rp wp : String) (rs ws : Nat) (d : String)
    (hfind : ms.find? (fun x => x.id == matchId) = some m)
    (hr : m.redPlayerId = some rp) (hw : m.whitePlayerId = some wp)
    (heq : rs = ws) :
    submitScore ms matchId rs ws d = Except.error SubmitError.tied := by
  subst heq
  simp [submitScore, hfind, hr, hw]

/-- Witness for `submitScore_tied_error` at a concrete tied submission. -/
theorem submitScore_tied_error_witness :
    scenarioMatches.find? (fun x => x.id == 1)
        = some (mkMatch 1 (some "p1") (some "p2") (some 3) (some Slot.red) none none) ∧
    submitScore scenarioMatches 1 2 2 "even" = Except.error SubmitError.tied :=
  ⟨by decide,
   submitScore_tied_error scenarioMatches 1
     (mkMatch 1 (some "p1") (some "p2") (some 3) (some Slot.red) none none)
     "p1" "p2" 2 2 "even" (by decide) rfl rfl rfl⟩

/-- Claim C5: `handleWalkover` on an existing match with both slots empty
fails with the no-eligible-player error; the error return models the early
exit that performs no mutation. -/
theorem walkover_no_player_error (ms : List Match) (matchId : Nat) (m : Match)
    (hfind : ms.find? (fun x => x.id == matchId) = some m)
    (hr : m.redPlayerId = none) (hw : m.whitePlayerId = none) :
    handleWalkover ms matchId = Except.error WalkoverError.noEligiblePlayer := by
  simp [handleWalkover, hfind, hr, hw, Option.orElse]

/-- Witness for `walkover_no_player_error` at the empty match 3. -/
theorem walkover_no_player_error_witness :
    scenarioMatches.find? (fun x => x.id == 3)
        = some (mkMatch 3 none none none none none none) ∧
    handleWalkover scenarioMatches 3 = Except.error WalkoverError.noEligiblePlayer :=
  ⟨by decide,
   walkover_no_player_error scenarioMatches 3 (mkMatch 3 none none none none none none)
     (by decide) rfl rfl⟩

/-- `placeFn` never changes a match's id. -/
theorem placeFn_id (t : Nat) (p : String) (sl : Option Slot) (src : List String) (x : Match) :
    (placeFn t p sl src x).id = x.id := by
  unfold placeFn
  split
  · split
    · rfl
    · split
      · rfl
      · split
        · rfl
        · split
          · rfl
          · split
            · rfl
            · split <;> rfl
  · rfl

/-- Explicit placement rewrites an already explicitly placed match to the
same value. -/
theorem placeFn_explicit_idem (t : Nat) (p : String) (s : Slot) (src src' : List String)
    (x : Match) :
    placeFn t p (some s) src' (placeFn t p (some s) src x) = placeFn t p (some s) src x := by
  cases s <;> unfold placeFn <;>
    by_cases h : x.id == t <;>
    simp [h]

/-- Claim C8: explicit placement (target slot Red or White) is idempotent —
applying it twice (with any source-participant sets) equals applying it
once — and it always overwrites the targeted slot of the targeted match. -/
theorem place_explicit_idempotent (ms : List Match) (t : Nat) (p : String)
    (src src' : List String) (s : Slot) :
    placePlayerInMatch (placePlayerInMatch ms t p (some s) src) t p (some s) src'
        = placePlayerInMatch ms t p (some s) src ∧
    ∀ m', m' ∈ placePlayerInMatch ms t p (some s) src → m'.id = t →
      slotGet m' s = some p := by
  constructor
  · unfold placePlayerInMatch
    rw [List.map_map]
    apply List.map_congr_left
    intro x _
    exact placeFn_explicit_idem t p s src src' x
  · intro m' hm hmid
    unfold placePlayerInMatch at hm
    obtain ⟨x, _, rfl⟩ := List.mem_map.1 hm
    rw [placeFn_id] at hmid
    cases s <;> simp [placeFn, hmid, slotGet]

/-- Witness for `place_explicit_idempotent`: both slots full, explicit Red
placement still overwrites. -/
theorem place_explicit_idempotent_witness :
    placeFn 1 "p9" (some Slot.red) [] (mkMatch 1 (some "p1") (some "p2") (some 3) (some Slot.red) none none)
        ∈ placePlayerInMatch scenarioMatches 1 "p9" (some Slot.red) [] ∧
    slotGet (placeFn 1 "p9" (some Slot.red) []
        (mkMatch 1 (some "p1") (some "p2") (some 3) (some Slot.red) none none)) Slot.red
      = some "p9" :=
  ⟨by decide,
   (place_explicit_idempotent scenarioMatches 1 "p9" [] [] Slot.red).2 _ (by decide) (by decide)⟩

/-- Claim C10: on an unfinished match with BOTH slots occupied, walkover
does not fail: the red-slot occupant is recorded as winner with scores 0:0
and the walkover details string, and is routed along the winner edge via
`placePlayerInMatch` with both occupants as source participants. -/
theorem walkover_both_slots_red_wins (ms : List Match) (matchId : Nat) (m : Match)
    (rp wp : String)
    (hfind : ms.find? (fun x => x.id == matchId) = some m)
    (hr : m.redPlayerId = some rp) (hw : m.whitePlayerId = some wp)
    (_hunfinished : m.result = none) :
    handleWalkover ms matchId = Except.ok (
      match m.winnerToMatchId with
      | some wt =>
        placePlayerInMatch
          (ms.map (fun x => if x.id == matchId
            then { x with result := some ⟨rp, 0, 0, "輪空晉級 (Walkover)"⟩ } else x))
          wt rp m.winnerToSlot [rp, wp]
      | none =>
        ms.map (fun x => if x.id == matchId
          then { x with result := some ⟨rp, 0, 0, "輪空晉級 (Walkover)"⟩ } else x)) := by
  simp [handleWalkover, hfind, hr, hw, Option.orElse]

/-- Witness for `walkover_both_slots_red_wins`: walkover on match 1 of the
three-match bracket silently advances the red player p1 into match 3. -/
theorem walkover_both_slots_red_wins_witness :
    (scenarioMatches.find? (fun x => x.id == 1)
        = some (mkMatch 1 (some "p1") (some "p2") (some 3) (some Slot.red) none none)) ∧
    handleWalkover scenarioMatches 1 = Except.ok (
      match (mkMatch 1 (some "p1") (some "p2") (some 3) (some Slot.red) none none).winnerToMatchId with
      | some wt =>
        placePlayerInMatch
          (scenarioMatches.map (fun x => if x.id == 1
            then { x with result := some ⟨"p1", 0, 0, "輪空晉級 (Walkover)"⟩ } else x))
          wt "p1" (mkMatch 1 (some "p1") (some "p2") (some 3) (some Slot.red) none none).winnerToSlot
          ["p1", "p2"]
      | none =>
        scenarioMatches.map (fun x => if x.id == 1
          then { x with result := some ⟨"p1", 0, 0, "輪空晉級 (Walkover)"⟩ } else x)) :=
  ⟨by decide,
   walkover_both_slots_red_wins scenarioMatches 1
     (mkMatch 1 (some "p1") (some "p2") (some 3) (some Slot.red) none none)
     "p1" "p2" (by decide) rfl rfl rfl⟩

/-- Counterexample to claim C4 as stated: `woBothEdgesM1` satisfies the
walkover precondition (only Red occupied, unfinished) and has a configured
loser edge to match 2, but since its winner edge also targets match 2,
walkover changes the loser-edge target match (the winner is placed there). -/
theorem walkover_loser_target_changed_cex :
    woBothEdgesM1.loserToMatchId = some 2 ∧
    woBothEdgesM1.redPlayerId.isSome = true ∧ woBothEdgesM1.whitePlayerId = none ∧
    woBothEdgesM1.result = none ∧
    (handleWalkover woBothEdges 1).map (fun u => u.filter (fun x => x.id == 2))
      ≠ Except.ok (woBothEdges.filter (fun x => x.id == 2)) := by
  refine ⟨rfl, rfl, rfl, rfl, ?_⟩
  decide

/-- Mapping a match list with an id-preserving function that fixes every
match of a given id leaves the filter on that id unchanged. -/
theorem filter_id_map_fixed (l : List Match) (g : Match → Match) (t : Nat)
    (hid : ∀ x, (g x).id = x.id) (hfix : ∀ x, x.id = t → g x = x) :
    (l.map g).filter (fun mm => mm.id == t) = l.filter (fun mm => mm.id == t) := by
  induction l with
  | nil => rfl
  | cons x xs ih =>
    simp only [List.map_cons, List.filter_cons]
    by_cases hx : x.id = t
    · rw [hfix x hx]
      have hb : (x.id == t) = true := beq_iff_eq.2 hx
      simp [hb, ih]
    · have h2 : (x.id == t) = false := beq_eq_false_iff_ne.2 hx
      have h1 : ((g x).id == t) = false := by rw [hid x]; exact h2
      simp [h1, h2, ih]

/-- Placement into a target id different from `lt` does not affect the
matches with id `lt`. -/
theorem placePlayerInMatch_filter_ne (l : List Match) (t : Nat) (p : String)
    (sl : Option Slot) (src : List String) (lt : Nat) (h : t ≠ lt) :
    (placePlayerInMatch l t p sl src).filter (fun mm => mm.id == lt)
      = l.filter (fun mm => mm.id == lt) := by
  unfold placePlayerInMatch
  apply filter_id_map_fixed
  · intro x; exact placeFn_id t p sl src x
  · intro x hx
    have hb : (x.id == t) = false := by
      refine beq_eq_false_iff_ne.2 ?_
      rw [hx]; exact fun hh => h hh.symm
    unfold placeFn
    simp [hb]

/-- Writing a result into the match with id `matchId` does not affect the
matches with a different id `lt`. -/
theorem resultWrite_filter_ne (l : List Match) (matchId : Nat) (res : MatchResult)
    (lt : Nat) (h : lt ≠ matchId) :
    (l.map (fun x => if x.id == matchId then { x with result := some res } else x)).filter
        (fun mm => mm.id == lt)
      = l.filter (fun mm => mm.id == lt) := by
  apply filter_id_map_fixed
  · intro x
    by_cases hx : x.id == matchId <;> simp [hx]
  · intro x hx
    have hb : (x.id == matchId) = false := by
      refine beq_eq_false_iff_ne.2 ?_
      rw [hx]; exact h
    simp [hb]

/-- Claim C4 (amended): walkover on a match satisfying the walkover
precondition with a configured loser edge leaves the loser-edge target
unchanged, provided that target is distinct from the match itself and from
the winner-edge target (otherwise the result write, resp. the winner
routing, touches it). -/
theorem walkover_skips_loser_routing (ms : List Match) (matchId : Nat) (m : Match)
    (lt : Nat)
    (hfind : ms.find? (fun x => x.id == matchId) = some m)
    (hone : (m.redPlayerId.isSome ∧ m.whitePlayerId = none) ∨
            (m.redPlayerId = none ∧ m.whitePlayerId.isSome))
    (_hunfinished : m.result = none)
    (_hlt : m.loserToMatchId = some lt)
    (hltSelf : lt ≠ matchId)
    (hltWin : m.winnerToMatchId ≠ some lt) :
    ∃ u, handleWalkover ms matchId = Except.ok u ∧
      u.filter (fun x => x.id == lt) = ms.filter (fun x => x.id == lt) := by
  obtain ⟨w, hwin⟩ : ∃ w, m.redPlayerId.orElse (fun _ => m.whitePlayerId) = some w := by
    rcases hone with ⟨hr, _⟩ | ⟨hr, hwv⟩
    · obtain ⟨r, hr2⟩ := Option.isSome_iff_exists.1 hr
      exact ⟨r, by simp [hr2, Option.orElse]⟩
    · obtain ⟨wv, hw2⟩ := Option.isSome_iff_exists.1 hwv
      exact ⟨wv, by simp [hr, hw2, Option.orElse]⟩
  simp only [handleWalkover, hfind, hwin]
  refine ⟨_, rfl, ?_⟩
  cases hwt : m.winnerToMatchId with
  | none =>
    simp only [hwt]
    exact resultWrite_filter_ne ms matchId _ lt hltSelf
  | some wt =>
    have hwtlt : wt ≠ lt := fun heq => hltWin (by rw [hwt, heq])
    simp only [hwt]
    rw [placePlayerInMatch_filter_ne _ _ _ _ _ _ hwtlt]
    exact resultWrite_filter_ne ms matchId _ lt hltSelf

/-- Witness for `walkover_skips_loser_routing`: a walkover whose loser edge
targets a distinct match 3 leaves match 3 untouched. -/
theorem walkover_skips_loser_routing_witness :
    ([ mkMatch 1 (some "p1") none (some 2) none (some 3) none,
       mkMatch 2 none none none none none none,
       mkMatch 3 none none none none none none ].find? (fun x => x.id == 1)
      = some (mkMatch 1 (some "p1") none (some 2) none (some 3) none)) ∧
    ∃ u, handleWalkover
        [ mkMatch 1 (some "p1") none (some 2) none (some 3) none,
          mkMatch 2 none none none none none none,
          mkMatch 3 none none none none none none ] 1 = Except.ok u ∧
      u.filter (fun x => x.id == 3) =
        [ mkMatch 1 (some "p1") none (some 2) none (some 3) none,
          mkMatch 2 none none none none none none,
          mkMatch 3 none none none none none none ].filter (fun x => x.id == 3) :=
  ⟨by decide,
   walkover_skips_loser_routing _ 1 (mkMatch 1 (some "p1") none (some 2) none (some 3) none) 3
     (by decide) (Or.inl ⟨by decide, rfl⟩) rfl rfl (by decide) (by decide)⟩

/-- `addRanking` preserves the ranking invariant when player names are
pairwise distinct. -/
theorem addRanking_inv (players : List Player)
    (H : (players.map Player.name).Nodup)
    (st : RankState) (pid : Option String) (title : String) (order : Nat)
    (h : RankInv players st) :
    RankInv players (addRanking players st pid title order) := by
  obtain ⟨hnd, hal⟩ := h
  unfold addRanking
  cases pid with
  | none => exact ⟨hnd, hal⟩
  | some pid =>
    dsimp only
    by_cases hc : st.processedPlayers.contains pid = true
    · rw [if_pos hc]
      exact ⟨hnd, hal⟩
    · rw [if_neg hc]
      cases hfind : players.find? (fun pl => pl.id == pid) with
      | none => exact ⟨hnd, hal⟩
      | some p =>
        have hpmem : p ∈ players := List.mem_of_find?_eq_some hfind
        have hpid : p.id = pid := by
          have := List.find?_some hfind
          simpa using this
        dsimp only
        constructor
        · rw [List.map_append, List.nodup_append]
          refine ⟨hnd, List.nodup_singleton _, ?_⟩
          intro nm hnm hnm2
          simp only [List.map_cons, List.map_nil, List.mem_singleton] at hnm2
          subst hnm2
          obtain ⟨e, he, hename⟩ := List.mem_map.1 hnm
          obtain ⟨q, hq, hqname, hqproc⟩ := hal e he
          have : q = p := by
            apply List.inj_on_of_nodup_map H hq hpmem
            rw [hqname, hename]
          apply hc
          rw [List.elem_iff]
          rw [← hpid, ← this]
          exact hqproc
        · intro e he
          rw [List.mem_append] at he
          cases he with
          | inl he =>
            obtain ⟨q, hq, hqname, hqproc⟩ := hal e he
            exact ⟨q, hq, hqname, List.mem_cons_of_mem _ hqproc⟩
          | inr he =>
            simp only [List.mem_singleton] at he
            subst he
            refine ⟨p, hpmem, rfl, ?_⟩
            rw [hpid]
            exact List.mem_cons_self _ _

/-- A fold whose step preserves the ranking invariant preserves it. -/
theorem foldl_rankinv (players : List Player) {α : Type} (f : RankState → α → RankState)
    (l : List α) (st : RankState)
    (hf : ∀ st x, RankInv players st → RankInv players (f st x))
    (h : RankInv players st) : RankInv players (l.foldl f st) := by
  induction l generalizing st with
  | nil => exact h
  | cons x xs ih => exact ih (f st x) (hf st x h)

/-- `finalistsStep` preserves the ranking invariant. -/
theorem finalistsStep_inv (players : List Player)
    (H : (players.map Player.name).Nodup) (t1 : String) (o1 : Nat) (t2 : String) (o2 : Nat)
    (st : RankState) (root : Match) (h : RankInv players st) :
    RankInv players (finalistsStep players t1 o1 t2 o2 st root) := by
  unfold finalistsStep
  cases root.result with
  | none => exact h
  | some res => exact addRanking_inv players H _ _ _ _ (addRanking_inv players H _ _ _ _ h)

/-- `losersStep` preserves the ranking invariant. -/
theorem losersStep_inv (players : List Player)
    (H : (players.map Player.name).Nodup) (t : String) (o : Nat)
    (st : RankState) (m : Match) (h : RankInv players st) :
    RankInv players (losersStep players t o st m) := by
  unfold losersStep
  cases m.result with
  | none => exact h
  | some res => exact addRanking_inv players H _ _ _ _ h

/-- The whole accumulation satisfies the invariant. -/
theorem rankAccumulate_inv (players : List Player) (ms : List Match) (limit : Nat)
    (H : (players.map Player.name).Nodup) :
    RankInv players (rankAccumulate players ms limit) := by
  have base : RankInv players { rankings := [], processedPlayers := [] } := by
    constructor
    · exact List.nodup_nil
    · intro e he
      cases he
  simp only [rankAccumulate]
  repeat'
    first
    | exact base
    | split
    | apply foldl_rankinv players _ _ _ (fun st x h => losersStep_inv players H _ _ st x h)
    | apply foldl_rankinv players _ _ _ (fun st x h => finalistsStep_inv players H _ _ _ _ st x h)

/-- Claim C6: `getRankings` never lists a player twice — under the
identifying hypothesis that player names are pairwise distinct (the output
carries names, not ids), the produced name list has no duplicates; the
first title assigned to a player wins. -/
theorem getRankings_names_nodup (players : List Player) (ms : List Match) (limit : Nat)
    (H : (players.map Player.name).Nodup) :
    ((getRankings players ms limit).map RankEntry.name).Nodup := by
  obtain ⟨hnd, _⟩ := rankAccumulate_inv players ms limit H
  unfold getRankings
  have hperm : List.Perm
      ((List.insertionSort (fun a b => a.rankOrder ≤ b.rankOrder)
        (rankAccumulate players ms limit).rankings).map RankEntry.name)
      (((rankAccumulate players ms limit).rankings).map RankEntry.name) :=
    List.Perm.map _ (List.perm_insertionSort _ _)
  have hsortnd := (hperm.symm).nodup hnd
  rw [List.map_take]
  exact List.Nodup.sublist (List.take_sublist _ _) hsortnd

/-- Witness for `getRankings_names_nodup` on the finished three-match
scenario. -/
theorem getRankings_names_nodup_witness :
    ((scenarioPlayers.map Player.name).Nodup) ∧
    (((getRankings scenarioPlayers scenarioMatches 4).map RankEntry.name).Nodup) :=
  ⟨by decide, getRankings_names_nodup scenarioPlayers scenarioMatches 4 (by decide)⟩

/-- Lookup on a cons cell. -/
theorem dmGet_cons (e : Nat × Nat) (es : DepthMap) (k : Nat) :
    dmGet (e :: es) k = if (e.1 == k) = true then some e.2 else dmGet es k := by
  unfold dmGet
  rw [List.find?_cons]
  cases he : (e.1 == k) <;> simp [he]

/-- When the key is present, `dmSet` replaces in place. -/
theorem dmSet_eq_replace (mp : DepthMap) (k v : Nat)
    (h : (mp.any (fun e => e.1 == k)) = true) :
    dmSet mp k v = mp.map (fun e => if e.1 == k then (k, v) else e) := by
  unfold dmSet
  rw [if_pos h]

/-- When the key is absent, `dmSet` appends. -/
theorem dmSet_eq_append (mp : DepthMap) (k v : Nat)
    (h : (mp.any (fun e => e.1 == k)) = false) :
    dmSet mp k v = mp ++ [(k, v)] := by
  unfold dmSet
  rw [if_neg (by rw [h]; exact Bool.false_ne_true)]

/-- Setting a key makes lookup of that key return the set value. -/
theorem dmSet_get_self (mp : DepthMap) (k v : Nat) :
    dmGet (dmSet mp k v) k = some v := by
  induction mp with
  | nil =>
    rw [dmSet_eq_append [] k v rfl]
    simp [dmGet_cons]
  | cons e es ih =>
    cases he : (e.1 == k) with
    | true =>
      rw [dmSet_eq_replace _ _ _ (by simp [List.any_cons, he])]
      simp only [List.map_cons, he, if_true]
      simp [dmGet_cons]
    | false =>
      cases han : (es.any (fun e => e.1 == k)) with
      | true =>
        rw [dmSet_eq_replace _ _ _ (by simp [List.any_cons, he, han])]
        rw [dmSet_eq_replace _ _ _ han] at ih
        simp only [List.map_cons, he, if_false, Bool.false_eq_true]
        rw [dmGet_cons]
        simp only [he, if_false, Bool.false_eq_true]
        simpa using ih
      | false =>
        rw [dmSet_eq_append _ _ _ (by simp [List.any_cons, he, han])]
        rw [dmSet_eq_append _ _ _ han] at ih
        rw [List.cons_append, dmGet_cons]
        simp only [he, if_false, Bool.false_eq_true]
        simpa using ih

/-- Setting a key does not change lookups of other keys. -/
theorem dmSet_get_ne (mp : DepthMap) (k v k' : Nat) (h : k' ≠ k) :
    dmGet (dmSet mp k v) k' = dmGet mp k' := by
  have hkk : ((k : Nat) == k') = false := beq_eq_false_iff_ne.2 (fun hh => h hh.symm)
  induction mp with
  | nil =>
    rw [dmSet_eq_append [] k v rfl]
    simp [dmGet_cons, hkk, dmGet]
  | cons e es ih =>
    cases he : (e.1 == k) with
    | true =>
      have hek : e.1 = k := beq_iff_eq.1 he
      have hek' : (e.1 == k') = false := by rw [hek]; exact hkk
      rw [dmSet_eq_replace _ _ _ (by simp [List.any_cons, he])]
      rw [List.map_cons]
      rw [if_pos he]
      rw [dmGet_cons, dmGet_cons]
      rw [if_neg (by rw [hkk]; exact Bool.false_ne_true)]
      rw [if_neg (by rw [hek']; exact Bool.false_ne_true)]
      cases han : (es.any (fun e => e.1 == k)) with
      | true =>
        rw [dmSet_eq_replace _ _ _ han] at ih
        exact ih
      | false =>
        have hrepl : es.map (fun e => if e.1 == k then (k, v) else e) = es.map id := by
          apply List.map_congr_left
          intro x hx
          have hxk : ¬ ((x.1 == k) = true) := by
            intro hcon
            exact absurd (List.any_eq_true.2 ⟨x, hx, hcon⟩)
              (by rw [han]; exact Bool.false_ne_true)
          show (if (x.1 == k) = true then ((k, v) : Nat × Nat) else x) = id x
          rw [if_neg hxk]
          rfl
        rw [hrepl, List.map_id]
    | false =>
      have hfe : (if (e.1 == k) = true then ((k, v) : Nat × Nat) else e) = e :=
        if_neg (by rw [he]; exact Bool.false_ne_true)
      rw [dmGet_cons]
      cases han : (es.any (fun e => e.1 == k)) with
      | true =>
        rw [dmSet_eq_replace _ _ _ (by simp [List.any_cons, he, han])]
        rw [dmSet_eq_replace _ _ _ han] at ih
        rw [List.map_cons, hfe, dmGet_cons]
        cases he' : (e.1 == k') with
        | true => rfl
        | false =>
          rw [if_neg Bool.false_ne_true, if_neg Bool.false_ne_true]
          exact ih
      | false =>
        rw [dmSet_eq_append _ _ _ (by simp [List.any_cons, he, han])]
        rw [dmSet_eq_append _ _ _ han] at ih
        rw [List.cons_append, dmGet_cons]
        cases he' : (e.1 == k') with
        | true => rfl
        | false =>
          rw [if_neg Bool.false_ne_true, if_neg Bool.false_ne_true]
          exact ih

/-- Full case analysis of the JS-style conditional depth update: either it
overwrites (and any previous value was at most the new depth), or it leaves
the map unchanged because a value at least the candidate is stored. -/
theorem dmUpdate_cases (mp : DepthMap) (k c : Nat) :
    (dmUpdate mp k c = dmSet mp k c ∧ ∀ e, dmGet mp k = some e → e ≤ c) ∨
    (dmUpdate mp k c = mp ∧ ∃ e, dmGet mp k = some e ∧ c ≤ e) := by
  unfold dmUpdate
  cases hget : dmGet mp k with
  | none =>
    have hj : jsExisting mp k = -1 := by
      unfold jsExisting
      rw [hget]
    have hset : (c : Int) > jsExisting mp k := by rw [hj]; omega
    refine Or.inl ⟨by rw [if_pos hset], ?_⟩
    intro e he
    cases he
  | some e =>
    by_cases he : e = 0
    · subst he
      have hj : jsExisting mp k = -1 := by
        unfold jsExisting
        rw [hget]
        rfl
      have hset : (c : Int) > jsExisting mp k := by rw [hj]; omega
      refine Or.inl ⟨by rw [if_pos hset], ?_⟩
      intro e' he'
      cases he'
      omega
    · have hj : jsExisting mp k = (e : Int) := by
        unfold jsExisting
        rw [hget]
        dsimp only
        rw [if_neg (by simpa using he)]
      by_cases hset : (c : Int) > jsExisting mp k
      · refine Or.inl ⟨by rw [if_pos hset], ?_⟩
        intro e' he'
        cases he'
        rw [hj] at hset
        omega
      · refine Or.inr ⟨by rw [if_neg hset], e, rfl, ?_⟩
        rw [hj] at hset
        omega

/-- Lookup after `dmUpdate` on the updated key: the stored value is at least
the candidate depth. -/
theorem dmUpdate_get_self (mp : DepthMap) (k c : Nat) :
    ∃ v, dmGet (dmUpdate mp k c) k = some v ∧ c ≤ v := by
  rcases dmUpdate_cases mp k c with ⟨heq, _⟩ | ⟨heq, e, hget, hce⟩
  · rw [heq, dmSet_get_self]
    exact ⟨c, rfl, Nat.le_refl c⟩
  · rw [heq, hget]
    exact ⟨e, rfl, hce⟩

/-- `dmUpdate` does not change lookups of other keys. -/
theorem dmUpdate_get_ne (mp : DepthMap) (k c k' : Nat) (h : k' ≠ k) :
    dmGet (dmUpdate mp k c) k' = dmGet mp k' := by
  rcases dmUpdate_cases mp k c with ⟨heq, _⟩ | ⟨heq, _⟩
  · rw [heq, dmSet_get_ne mp k c k' h]
  · rw [heq]

/-- `dmUpdate` only grows stored depths. -/
theorem dmUpdate_DMle (mp : DepthMap) (k c : Nat) : DMle mp (dmUpdate mp k c) := by
  intro k' v hget
  by_cases hk : k' = k
  · subst hk
    rcases dmUpdate_cases mp k' c with ⟨heq, hle⟩ | ⟨heq, _⟩
    · rw [heq, dmSet_get_self]
      exact ⟨c, rfl, hle v hget⟩
    · rw [heq, hget]
      exact ⟨v, rfl, Nat.le_refl v⟩
  · rw [dmUpdate_get_ne mp k c k' hk, hget]
    exact ⟨v, rfl, Nat.le_refl v⟩

/-- Any value visible after `dmUpdate` is an old value or the new depth. -/
theorem dmUpdate_new (mp : DepthMap) (k c k' v' : Nat)
    (h : dmGet (dmUpdate mp k c) k' = some v') :
    dmGet mp k' = some v' ∨ (k' = k ∧ v' = c) := by
  by_cases hk : k' = k
  · subst hk
    rcases dmUpdate_cases mp k' c with ⟨heq, _⟩ | ⟨heq, _⟩
    · rw [heq, dmSet_get_self] at h
      cases h
      exact Or.inr ⟨rfl, rfl⟩
    · rw [heq] at h
      exact Or.inl h
  · rw [dmUpdate_get_ne mp k c k' hk] at h
    exact Or.inl h

/-- `DMle` is reflexive. -/
theorem DMle_refl (mp : DepthMap) : DMle mp mp :=
  fun _ v h => ⟨v, h, Nat.le_refl v⟩

/-- `DMle` is transitive. -/
theorem DMle_trans {a b c : DepthMap} (h1 : DMle a b) (h2 : DMle b c) : DMle a c := by
  intro k v hget
  obtain ⟨v1, hv1, hle1⟩ := h1 k v hget
  obtain ⟨v2, hv2, hle2⟩ := h2 k v1 hv1
  exact ⟨v2, hv2, Nat.le_trans hle1 hle2⟩

/-- Setting a fresh key only grows the map. -/
theorem dmSet_DMle_of_none (mp : DepthMap) (k v : Nat) (h : dmGet mp k = none) :
    DMle mp (dmSet mp k v) := by
  intro k' w hget
  by_cases hk : k' = k
  · subst hk
    rw [h] at hget
    cases hget
  · rw [dmSet_get_ne mp k v k' hk]
    exact ⟨w, hget, Nat.le_refl w⟩

/-- Folding a pointwise-growing step only grows the map. -/
theorem foldl_DMle {α : Type} (g : DepthMap → α → DepthMap)
    (hg : ∀ acc x, DMle acc (g acc x)) :
    ∀ (l : List α) (mp : DepthMap), DMle mp (l.foldl g mp) := by
  intro l
  induction l with
  | nil => exact fun mp => DMle_refl mp
  | cons x xs ih =>
    intro mp
    exact DMle_trans (hg mp x) (ih (g mp x))

/-- Folding a property-preserving step preserves the property. -/
theorem foldl_preserve {α : Type} (P : DepthMap → Prop) (g : DepthMap → α → DepthMap)
    (hg : ∀ acc x, P acc → P (g acc x)) :
    ∀ (l : List α) (mp : DepthMap), P mp → P (l.foldl g mp) := by
  intro l
  induction l with
  | nil => exact fun _ h => h
  | cons x xs ih => exact fun mp h => ih (g mp x) (hg mp x h)

/-- `dmUpdate` with a bounded candidate keeps the map bounded. -/
theorem dmUpdate_bound (mp : DepthMap) (k c : Nat) (hmp : DBounded mp)
    (hc : c ≤ maxDepth) : DBounded (dmUpdate mp k c) := by
  intro k' v' hget
  rcases dmUpdate_new mp k c k' v' hget with hold | ⟨_, rfl⟩
  · exact hmp k' v' hold
  · exact hc

/-- Unfolding `calcGo` at zero fuel. -/
theorem calcGo_zero (ms : List Match) (x c : Nat) (mp : DepthMap) :
    calcGo ms 0 x c mp = mp := rfl

/-- Unfolding `calcGo` at positive fuel. -/
theorem calcGo_succ (ms : List Match) (fuel x c : Nat) (mp : DepthMap) :
    calcGo ms (fuel + 1) x c mp =
      if c > maxDepth then mp
      else (feedersOf ms x).foldl
        (fun acc f => calcGo ms fuel f.id (c + 1) acc) (dmUpdate mp x c) := rfl

/-- The traversal only grows the depth map. -/
theorem calcGo_DMle (ms : List Match) :
    ∀ (fuel x c : Nat) (mp : DepthMap), DMle mp (calcGo ms fuel x c mp) := by
  intro fuel
  induction fuel with
  | zero =>
    intro x c mp
    rw [calcGo_zero]
    exact DMle_refl mp
  | succ fuel ih =>
    intro x c mp
    rw [calcGo_succ]
    by_cases hc : c > maxDepth
    · rw [if_pos hc]
      exact DMle_refl mp
    · rw [if_neg hc]
      exact DMle_trans (dmUpdate_DMle mp x c)
        (foldl_DMle _ (fun acc (f : Match) => ih f.id (c + 1) acc) _ _)

/-- The traversal never stores a depth above the cap. -/
theorem calcGo_bound (ms : List Match) :
    ∀ (fuel x c : Nat) (mp : DepthMap), DBounded mp → DBounded (calcGo ms fuel x c mp) := by
  intro fuel
  induction fuel with
  | zero =>
    intro x c mp h
    rw [calcGo_zero]
    exact h
  | succ fuel ih =>
    intro x c mp h
    rw [calcGo_succ]
    by_cases hc : c > maxDepth
    · rw [if_pos hc]
      exact h
    · rw [if_neg hc]
      exact foldl_preserve DBounded _ (fun acc (f : Match) hh => ih f.id (c + 1) acc hh) _ _
        (dmUpdate_bound mp x c h (Nat.le_of_not_lt hc))

/-- A visited node ends up with a depth at least the visiting depth. -/
theorem calcGo_reach (ms : List Match) (fuel x c : Nat) (mp : DepthMap)
    (hf : fuel + c = maxDepth + 1) (hc : c ≤ maxDepth) :
    ∃ v, dmGet (calcGo ms fuel x c mp) x = some v ∧ c ≤ v := by
  cases fuel with
  | zero => omega
  | succ fuel =>
    rw [calcGo_succ]
    rw [if_neg (Nat.not_lt.2 hc)]
    obtain ⟨v, hv, hcv⟩ := dmUpdate_get_self mp x c
    obtain ⟨v', hv', hvv'⟩ :=
      foldl_DMle _ (fun acc (f : Match) => calcGo_DMle ms fuel f.id (c + 1) acc) (feedersOf ms x)
        (dmUpdate mp x c) x v hv
    exact ⟨v', hv', Nat.le_trans hcv hvv'⟩

/-- Every member of a processed feeder list ends up with a depth at least
the processing depth. -/
theorem foldReach (ms : List Match) (fuel d : Nat)
    (hf : fuel + d = maxDepth + 1) (hd : d ≤ maxDepth) :
    ∀ (l : List Match) (mp : DepthMap) (f : Match), f ∈ l →
      ∃ v, dmGet (l.foldl (fun acc g => calcGo ms fuel g.id d acc) mp) f.id = some v ∧
        d ≤ v := by
  intro l
  induction l with
  | nil =>
    intro mp f hmem
    cases hmem
  | cons g gs ih =>
    intro mp f hmem
    rw [List.foldl_cons]
    rcases List.mem_cons.1 hmem with rfl | hmem'
    · obtain ⟨v, hv, hdv⟩ := calcGo_reach ms fuel f.id d mp hf hd
      obtain ⟨v', hv', hvv'⟩ :=
        foldl_DMle _ (fun acc (xx : Match) => calcGo_DMle ms fuel xx.id d acc) gs _ f.id v hv
      exact ⟨v', hv', Nat.le_trans hdv hvv'⟩
    · exact ih _ f hmem'

/-- `Bump` transports along map growth. -/
theorem Bump_mono (ms : List Match) (mp mp' : DepthMap) (h : DMle mp mp')
    (bId db : Nat) (hb : Bump ms mp bId db) : Bump ms mp' bId db := by
  intro a ha hf
  obtain ⟨va, hva, hle⟩ := hb a ha hf
  obtain ⟨va', hva', hlee⟩ := h a.id va hva
  exact ⟨va', hva', Nat.le_trans hle hlee⟩

/-- A member match that feeds `bId` is among the computed feeders of `bId`. -/
theorem feeds_mem (ms : List Match) (a : Match) (bId : Nat)
    (ha : a ∈ ms) (hf : Feeds a bId) : a ∈ feedersOf ms bId := by
  unfold feedersOf
  rw [List.mem_filter]
  refine ⟨ha, ?_⟩
  rcases hf with h | h <;> simp [h]

/-- Key lemma: a depth newly assigned by a traversal call, if strictly below
the cap, forces every feeder of that match to carry a strictly larger depth
in the call's result. -/
theorem calcGo_new (ms : List Match) :
    ∀ (fuel c x : Nat) (mp : DepthMap) (bId db : Nat),
      fuel + c = maxDepth + 1 →
      dmGet (calcGo ms fuel x c mp) bId = some db →
      dmGet mp bId ≠ some db →
      db < maxDepth →
      Bump ms (calcGo ms fuel x c mp) bId db := by
  intro fuel
  induction fuel with
  | zero =>
    intro c x mp bId db _ hget hnew _
    rw [calcGo_zero] at hget
    exact absurd hget hnew
  | succ fuel ih =>
    intro c x mp bId db hf hget hnew hcap
    rw [calcGo_succ] at hget ⊢
    by_cases hc : c > maxDepth
    · rw [if_pos hc] at hget ⊢
      exact absurd hget hnew
    · rw [if_neg hc] at hget ⊢
      have hf' : fuel + (c + 1) = maxDepth + 1 := by omega
      have foldNew : ∀ (l : List Match) (mp' : DepthMap),
          dmGet (l.foldl (fun acc g => calcGo ms fuel g.id (c + 1) acc) mp') bId = some db →
          dmGet mp' bId ≠ some db →
          Bump ms (l.foldl (fun acc g => calcGo ms fuel g.id (c + 1) acc) mp') bId db := by
        intro l
        induction l with
        | nil =>
          intro mp' hg hn
          exact absurd hg hn
        | cons g gs ihl =>
          intro mp' hg hn
          rw [List.foldl_cons] at hg ⊢
          by_cases hA : dmGet (calcGo ms fuel g.id (c + 1) mp') bId = some db
          · have hbump := ih (c + 1) g.id mp' bId db hf' hA hn hcap
            exact Bump_mono ms _ _
              (foldl_DMle _ (fun acc (xx : Match) => calcGo_DMle ms fuel xx.id (c + 1) acc) gs _)
              bId db hbump
          · exact ihl _ hg hA
      by_cases h1 : dmGet (dmUpdate mp x c) bId = some db
      · rcases dmUpdate_new mp x c bId db h1 with hold | ⟨heq1, heq2⟩
        · exact absurd hold hnew
        · subst heq1
          subst heq2
          intro a ha hfa
          exact foldReach ms fuel (db + 1) (by omega) (by omega)
            (feedersOf ms bId) (dmUpdate mp bId db) a (feeds_mem ms a bId ha hfa)
      · exact foldNew (feedersOf ms x) (dmUpdate mp x c) hget h1

/-- `calculateDepth` only grows the depth map. -/
theorem calculateDepth_DMle (ms : List Match) (x c : Nat) (mp : DepthMap) :
    DMle mp (calculateDepth ms x c mp) :=
  calcGo_DMle ms (maxDepth + 1 - c) x c mp

/-- `calculateDepth` never stores a depth above the cap. -/
theorem calculateDepth_bound (ms : List Match) (x c : Nat) (mp : DepthMap)
    (h : DBounded mp) : DBounded (calculateDepth ms x c mp) :=
  calcGo_bound ms (maxDepth + 1 - c) x c mp h

/-- The bump property for `calculateDepth` at its legal call depths. -/
theorem calculateDepth_new (ms : List Match) (x c : Nat) (mp : DepthMap) (bId db : Nat)
    (hc : c ≤ maxDepth + 1)
    (hget : dmGet (calculateDepth ms x c mp) bId = some db)
    (hnew : dmGet mp bId ≠ some db)
    (hcap : db < maxDepth) :
    Bump ms (calculateDepth ms x c mp) bId db :=
  calcGo_new ms (maxDepth + 1 - c) c x mp bId db (by omega) hget hnew hcap

/-- Setting a fresh key to zero preserves the layout invariant. -/
theorem layoutInv_set0 (ms : List Match) (m0 mp : DepthMap) (k : Nat)
    (hnone : dmGet mp k = none) (h : LayoutInv ms m0 mp) :
    LayoutInv ms m0 (dmSet mp k 0) := by
  obtain ⟨hbound, hle, hbump⟩ := h
  refine ⟨?_, ?_, ?_⟩
  · intro k' v hget
    by_cases hk : k' = k
    · subst hk
      rw [dmSet_get_self] at hget
      cases hget
      exact Nat.zero_le _
    · rw [dmSet_get_ne mp k 0 k' hk] at hget
      exact hbound k' v hget
  · exact DMle_trans hle (dmSet_DMle_of_none mp k 0 hnone)
  · intro bId db hget hcap hm0
    by_cases hk : bId = k
    · subst hk
      obtain ⟨v0, hv0⟩ := Option.isSome_iff_exists.1 hm0
      obtain ⟨v1, hv1, _⟩ := hle bId v0 hv0
      rw [hnone] at hv1
      cases hv1
    · rw [dmSet_get_ne mp k 0 bId hk] at hget
      exact Bump_mono ms mp _ (dmSet_DMle_of_none mp k 0 hnone) bId db
        (hbump bId db hget hcap hm0)

/-- Each step of the orphan pass preserves the layout invariant. -/
theorem orphanStep_inv (ms : List Match) (m0 mp : DepthMap) (m : Match)
    (h : LayoutInv ms m0 mp) : LayoutInv ms m0 (orphanStep ms mp m) := by
  obtain ⟨hbound, hle, hbump⟩ := h
  unfold orphanStep
  by_cases hsome : ((dmGet mp m.id).isSome) = true
  · rw [if_pos hsome]
    exact ⟨hbound, hle, hbump⟩
  · rw [if_neg hsome]
    have hnone : dmGet mp m.id = none := by
      cases hg : dmGet mp m.id with
      | none => rfl
      | some v =>
        rw [hg] at hsome
        exact absurd rfl hsome
    cases hfind : ms.find?
        (fun p => m.winnerToMatchId == some p.id || m.loserToMatchId == some p.id) with
    | none =>
      dsimp only
      exact layoutInv_set0 ms m0 mp m.id hnone ⟨hbound, hle, hbump⟩
    | some parent =>
      dsimp only
      cases hpd : dmGet mp parent.id with
      | none =>
        dsimp only
        exact layoutInv_set0 ms m0 mp m.id hnone ⟨hbound, hle, hbump⟩
      | some pd =>
        dsimp only
        have hpdle : pd ≤ maxDepth := hbound parent.id pd hpd
        refine ⟨?_, ?_, ?_⟩
        · exact calculateDepth_bound ms m.id (pd + 1) mp hbound
        · exact DMle_trans hle (calculateDepth_DMle ms m.id (pd + 1) mp)
        · intro bId db hget hcap hm0
          by_cases hmp : dmGet mp bId = some db
          · exact Bump_mono ms mp _ (calculateDepth_DMle ms m.id (pd + 1) mp) bId db
              (hbump bId db hmp hcap hm0)
          · exact calculateDepth_new ms m.id (pd + 1) mp bId db (by omega) hget hmp hcap

/-- The full layout depth assignment satisfies the layout invariant relative
to the root traversal. -/
theorem layoutDepths_inv (ms : List Match) (root : Nat) :
    LayoutInv ms (calculateDepth ms root 0 []) (layoutDepths ms root) := by
  have hnil : DBounded ([] : DepthMap) := by
    intro k v h
    cases h
  have hm0 : LayoutInv ms (calculateDepth ms root 0 []) (calculateDepth ms root 0 []) := by
    refine ⟨calculateDepth_bound ms root 0 [] hnil, DMle_refl _, ?_⟩
    intro bId db hget hcap _
    refine calculateDepth_new ms root 0 [] bId db (by omega) hget ?_ hcap
    intro hcon
    cases hcon
  unfold layoutDepths
  exact foldl_preserve (LayoutInv ms (calculateDepth ms root 0 []))
    (orphanStep ms) (fun acc x hh => orphanStep_inv ms _ acc x hh) ms _ hm0

/-- Counterexample to claim C7 as stated: in `discoMs` with root 3, match 1
feeds match 2 by a winner edge, both receive a depth from the layout, but
both depths are 0 — the edge is not strictly decreasing. -/
theorem layout_depth_monotone_cex :
    discoM1 ∈ discoMs ∧ discoM2 ∈ discoMs ∧
    discoM1.winnerToMatchId = some discoM2.id ∧
    dmGet (layoutDepths discoMs 3) discoM1.id = some 0 ∧
    dmGet (layoutDepths discoMs 3) discoM2.id = some 0 ∧
    ¬ ((0 : Nat) > (0 : Nat)) := by
  decide

/-- Claim C7 (amended): for every edge `a → b` (winner or loser) such that
`b` is reached by the root traversal itself and `b`'s final depth is
strictly below the recursion cap, `a` holds a strictly larger final depth.
(The counterexample shows the restriction is needed: the orphan fallback
can assign equal depths, and at the cap feeders are no longer visited.) -/
theorem layout_depth_monotone (ms : List Match) (root : Nat) (a b : Match)
    (ha : a ∈ ms) (_hb : b ∈ ms)
    (hfeeds : Feeds a b.id)
    (hroot : ((dmGet (calculateDepth ms root 0 []) b.id).isSome) = true)
    (db : Nat) (hdb : dmGet (layoutDepths ms root) b.id = some db)
    (hcap : db < maxDepth) :
    ∃ da, dmGet (layoutDepths ms root) a.id = some da ∧ db < da := by
  obtain ⟨_, _, hbump⟩ := layoutDepths_inv ms root
  obtain ⟨va, hva, hle⟩ := hbump b.id db hdb hcap hroot a ha hfeeds
  exact ⟨va, hva, hle⟩

/-- Witness for `layout_depth_monotone` on the two-match bracket. -/
theorem layout_depth_monotone_witness :
    (mkMatch 1 none none (some 2) none none none ∈ pairMs ∧
     mkMatch 2 none none none none none none ∈ pairMs ∧
     Feeds (mkMatch 1 none none (some 2) none none none)
       (mkMatch 2 none none none none none none).id ∧
     ((dmGet (calculateDepth pairMs 2 0 [])
        (mkMatch 2 none none none none none none).id).isSome) = true ∧
     dmGet (layoutDepths pairMs 2) (mkMatch 2 none none none none none none).id = some 0 ∧
     0 < maxDepth) ∧
    ∃ da, dmGet (layoutDepths pairMs 2)
        (mkMatch 1 none none (some 2) none none none).id = some da ∧ 0 < da :=
  ⟨⟨by decide, by decide, Or.inl rfl, by decide, by decide, by decide⟩,
   layout_depth_monotone pairMs 2
     (mkMatch 1 none none (some 2) none none none)
     (mkMatch 2 none none none none none none)
     (by decide) (by decide) (Or.inl rfl) (by decide) 0 (by decide) (by decide)⟩

set_option maxRecDepth 8000 in
/-- Counterexample to claim C9 as stated: match 12 of the chain receives no
depth from the root traversal (its only path from root 13 has length 12,
over the cap), yet it is NOT dropped from the layout — the orphan fallback
assigns it depth 0 and a level of the layout contains it. -/
theorem layout_cap_dropped_cex :
    (mkMatch 12 none none (some 11) none none none) ∈ chainMs ∧
    dmGet (calculateDepth chainMs 13 0 []) 12 = none ∧
    (levels chainMs 13).any
      (fun lvl => lvl.any (fun m => m.id == 12)) = true := by
  decide

/-- Claim C9 (amended): the layout traversal is total (the fuelled recursion
realises the JS depth cap, even on cyclic edge graphs), and a match that
ends up with no depth after BOTH the root traversal and the orphan fallback
appears in no level of the layout; a beyond-cap match whose lookup parent is
itself undepthed is instead assigned depth 0 by the fallback and retained. -/
theorem levels_drop_unmapped (ms : List Match) (root : Nat) (m : Match)
    (_hm : m ∈ ms)
    (hnone : dmGet (layoutDepths ms root) m.id = none) :
    m ∉ (levels ms root).flatten := by
  intro hmem
  obtain ⟨lvl, hlvl, hmlvl⟩ := List.mem_flatten.1 hmem
  simp only [levels, List.mem_map] at hlvl
  obtain ⟨d, _, rfl⟩ := hlvl
  rw [List.mem_insertionSort] at hmlvl
  have hpred := (List.mem_filter.1 hmlvl).2
  rw [hnone] at hpred
  cases hpred

set_option maxRecDepth 8000 in
/-- Witness for `levels_drop_unmapped`: chain match 11 has no depth at all
and is absent from the layout. -/
theorem levels_drop_unmapped_witness :
    (chainM11 ∈ chainMs ∧ dmGet (layoutDepths chainMs 13) chainM11.id = none) ∧
    chainM11 ∉ (levels chainMs 13).flatten :=
  ⟨⟨by decide, by decide⟩,
   levels_drop_unmapped chainMs 13 chainM11 (by decide) (by decide)⟩

end Kendo
